import Mathlib

/-!
Verification of `enigma_cli.py`, the command-line front end of the
enigma-simulator project.  Strings of the Python program are embedded as
`List Char`; the ASCII behaviour of the Python `str` methods `isalpha`,
`isdigit` and `upper` is modelled character-wise on `Char.toNat`.
-/

namespace EnigmaCli

/-- ASCII model of Python `str.isalpha` on a single character:
uppercase letter (65-90) or lowercase letter (97-122). -/
def py_isalpha_char (c : Char) : Bool :=
  (65 ≤ c.toNat && c.toNat ≤ 90) || (97 ≤ c.toNat && c.toNat ≤ 122)

/-- ASCII model of Python `str.isdigit` on a single character: 48-57. -/
def py_isdigit_char (c : Char) : Bool :=
  48 ≤ c.toNat && c.toNat ≤ 57

/-- ASCII model of Python `ord(c.upper())`: a lowercase letter is shifted
down by 32, every other character keeps its code point. -/
def py_ord_upper (c : Char) : Nat :=
  if 97 ≤ c.toNat && c.toNat ≤ 122 then c.toNat - 32 else c.toNat

/-- Python `s.isalpha()`: non-empty and every character alphabetic. -/
def python_isalpha (l : List Char) : Bool :=
  !l.isEmpty && l.all py_isalpha_char

/-- Python `s.isdigit()`: non-empty and every character a digit. -/
def python_isdigit (l : List Char) : Bool :=
  !l.isEmpty && l.all py_isdigit_char

/-- `WHEELS_DICT` of `enigma_cli.py` line 45: the fixed decimal-digit to
Roman-numeral rotor table, as a lookup returning `none` off the table
(Python `dict.get`). -/
def WHEELS_DICT (wheel : Char) : Option String :=
  if wheel = '1' then some "I"
  else if wheel = '2' then some "II"
  else if wheel = '3' then some "III"
  else if wheel = '5' then some "V"
  else none

/-- Line 53: `order = [WHEELS_DICT.get(rotor) for rotor in args.w]`. -/
def rotor_order (w : List Char) : List (Option String) :=
  w.map WHEELS_DICT

/-- Line 59: `swaps = [args.s[i:i + 2] for i in range(0, len(args.s), 2)]`.
Python `range(0, n, 2)` enumerates `i = 2 * j` for `j < (n + 1) / 2`, and
`s[i:i+2]` is `(drop i).take 2`. -/
def plug_swaps (s : List Char) : List (List Char) :=
  (List.range ((s.length + 1) / 2)).map (fun j => (s.drop (2 * j)).take 2)

/-- Line 91: `bit_offset = ord(character.upper()) - ord('A')`. -/
def plug_bit_offset (c : Char) : Nat :=
  py_ord_upper c - 65

/-- Lines 89-95 of `valid_plugboard`: the duplicate-letter scan over a
bitmap accumulator.  Returns `false` as soon as a bit is seen twice. -/
def plug_dup_scan : Nat → List Char → Bool
  | _, [] => true
  | bit_map, character :: rest =>
      if bit_map &&& (1 <<< plug_bit_offset character) ≠ 0 then false
      else plug_dup_scan (bit_map ||| (1 <<< plug_bit_offset character)) rest

/-- Lines 75-96: `valid_plugboard`. -/
def valid_plugboard (plug_info : List Char) : Bool :=
  if ¬python_isalpha plug_info = true
      ∨ ¬(2 ≤ plug_info.length ∧ plug_info.length ≤ 12)
      ∨ plug_info.length % 2 = 1 then false
  else plug_dup_scan 0 plug_info

/-- Lines 99-115: `valid_wheel_info`. -/
def valid_wheel_info (wheel_info : List Char) : Bool :=
  if wheel_info.length ≠ 3 then false
  else if ¬python_isdigit wheel_info = true then false
  else wheel_info.all (fun wheel => WHEELS_DICT wheel ≠ none)

/-- Lines 66-70, stream mode: the accumulation loop over the characters of
`sys.stdin.read()`.  Each character is appended to the buffer; whenever the
buffer then ends with a newline, that last character is dropped again
(`input_buffer[:-1]`). -/
def stream_fold (input_buffer : List Char) : List Char → List Char
  | [] => input_buffer
  | line :: rest =>
      let appended := input_buffer ++ [line]
      if appended.getLast? = some '\n'
      then stream_fold appended.dropLast rest
      else stream_fold appended rest

/-- Stream-mode input acquisition: run the loop on the whole stream
content, starting from the empty buffer. -/
def acquire_stream (content : List Char) : List Char :=
  stream_fold [] content

/-- The fixed prompt string of line 64. -/
def PROMPT : String := "Enter your text and press <Enter>: "

/-- Modelled from the spec: the prompt-mode line-input primitive used on
line 64 (the Python builtin `raw_input`, implemented outside this
repository).  It displays `PROMPT` and returns the first line of the input
stream with no trailing terminator. -/
def raw_input_acquire (stdin : List Char) : List Char :=
  stdin.takeWhile (fun c => c ≠ '\n')

/-- Lines 62-70: the text `process_request` acquires and passes to the
single `enigma.encipher` call, as a function of the `-p` flag and the
input stream. -/
def acquired_text (p : Bool) (stdin : List Char) : List Char :=
  if p then raw_input_acquire stdin else acquire_stream stdin

/-- Diagnostic of line 148. -/
def msg_m : String := "Invalid -m parameter, expected three letters."

/-- Diagnostic of lines 151-152. -/
def msg_w : String :=
  "Invalid -w parameter, expected a three digit number. Valid digits are\n1, 2, 3, and 5."

/-- Diagnostic of lines 155-157. -/
def msg_s : String :=
  "Invalid -s parameter, expected single string with an even number of\nletters with no duplicates, maximum letter count is 12."

/-- Outcome of the validation section of `main` (lines 146-159): either a
diagnostic is printed and the process exits with the given status before
`process_request` is reached (so the engine is never constructed), or
control proceeds into `process_request`. -/
inductive MainStep where
  | reject (diagnostic : String) (exitCode : Nat)
  | run
deriving DecidableEq

/-- Lines 146-159 of `main`: the three parameter checks in source order. -/
def main_validate (m w : List Char) (s : Option (List Char)) : MainStep :=
  if m.length ≠ 3 ∨ ¬python_isalpha m = true then .reject msg_m 1
  else if ¬valid_wheel_info w = true then .reject msg_w 1
  else
    match s with
    | some ps => if ¬valid_plugboard ps = true then .reject msg_s 1 else .run
    | none => .run

/-- Written from the spec's words, for comparison with `plug_swaps`: the
pair sequence is the consecutive non-overlapping 2-character windows of
the packed string, taken left to right. -/
def pairs_spec : List Char → List (List Char)
  | a :: b :: rest => [a, b] :: pairs_spec rest
  | _ => []

/-! ### Helper lemmas -/

/-- The stream loop appends to the buffer every character except `'\n'`:
after each append the buffer ends with `'\n'` exactly when the character
just appended is `'\n'`, and `dropLast` then removes exactly it. -/
lemma stream_fold_eq (l : List Char) : ∀ buf : List Char,
    stream_fold buf l = buf ++ l.filter (fun c => c ≠ '\n') := by
  induction l with
  | nil => intro buf; simp [stream_fold]
  | cons c rest ih =>
    intro buf
    by_cases hc : c = '\n'
    · subst hc
      simp [stream_fold, List.getLast?_concat, List.dropLast_concat, ih,
        List.filter_cons]
    · simp [stream_fold, List.getLast?_concat, List.dropLast_concat, hc, ih,
        List.filter_cons]

lemma python_isalpha_iff (l : List Char) :
    python_isalpha l = true ↔ (l ≠ [] ∧ ∀ c ∈ l, py_isalpha_char c = true) := by
  simp [python_isalpha, List.all_eq_true, List.isEmpty_iff]

lemma python_isdigit_iff (l : List Char) :
    python_isdigit l = true ↔ (l ≠ [] ∧ ∀ c ∈ l, py_isdigit_char c = true) := by
  simp [python_isdigit, List.all_eq_true, List.isEmpty_iff]

lemma WHEELS_DICT_ne_none_iff (c : Char) :
    WHEELS_DICT c ≠ none ↔ (c = '1' ∨ c = '2' ∨ c = '3' ∨ c = '5') := by
  unfold WHEELS_DICT
  split_ifs with h1 h2 h3 h5
  · simp [h1]
  · simp [h2]
  · simp [h3]
  · simp [h5]
  · simp [h1, h2, h3, h5]

lemma and_shift_ne_zero_iff (bm k : Nat) :
    bm &&& (1 <<< k) ≠ 0 ↔ bm.testBit k = true := by
  rw [Nat.one_shiftLeft, Nat.and_two_pow]
  cases h : bm.testBit k <;>
    simp [h, Nat.pos_iff_ne_zero, (Nat.two_pow_pos k).ne']

/-- The bitmap scan succeeds exactly when the bit offsets are pairwise
distinct and none of them is already set in the incoming bitmap. -/
lemma plug_dup_scan_iff (l : List Char) : ∀ bm : Nat,
    plug_dup_scan bm l = true ↔
      ((l.map plug_bit_offset).Nodup ∧
        ∀ c ∈ l, bm.testBit (plug_bit_offset c) = false) := by
  induction l with
  | nil => intro bm; simp [plug_dup_scan]
  | cons c rest ih =>
    intro bm
    by_cases hbit : bm.testBit (plug_bit_offset c) = true
    · have hcond : bm &&& (1 <<< plug_bit_offset c) ≠ 0 :=
        (and_shift_ne_zero_iff bm (plug_bit_offset c)).2 hbit
      rw [plug_dup_scan, if_pos hcond]
      constructor
      · intro h; exact absurd h (by simp)
      · rintro ⟨-, hall⟩
        have hc := hall c (List.mem_cons_self c rest)
        rw [hbit] at hc
        exact absurd hc (by simp)
    · have hcond : ¬bm &&& (1 <<< plug_bit_offset c) ≠ 0 := by
        rw [and_shift_ne_zero_iff]; exact hbit
      rw [plug_dup_scan, if_neg hcond, ih]
      have hbit' : bm.testBit (plug_bit_offset c) = false :=
        Bool.eq_false_iff.2 hbit
      constructor
      · rintro ⟨hnd, hall⟩
        refine ⟨?_, ?_⟩
        · rw [List.map_cons, List.nodup_cons]
          refine ⟨?_, hnd⟩
          intro hmem
          obtain ⟨d, hd, hde⟩ := List.mem_map.1 hmem
          have := hall d hd
          rw [Nat.one_shiftLeft, Nat.testBit_or, Nat.testBit_two_pow] at this
          simp [hde] at this
        · intro d hd
          rcases List.mem_cons.1 hd with rfl | hd'
          · exact hbit'
          · have := hall d hd'
            rw [Nat.one_shiftLeft, Nat.testBit_or] at this
            exact (Bool.or_eq_false_iff.1 this).1
      · rintro ⟨hnd, hall⟩
        rw [List.map_cons, List.nodup_cons] at hnd
        refine ⟨hnd.2, ?_⟩
        intro d hd
        rw [Nat.one_shiftLeft, Nat.testBit_or, Nat.testBit_two_pow]
        have h1 : bm.testBit (plug_bit_offset d) = false :=
          hall d (List.mem_cons_of_mem c hd)
        have h2 : plug_bit_offset c ≠ plug_bit_offset d := by
          intro he
          exact hnd.1 (he ▸ List.mem_map_of_mem plug_bit_offset hd)
        simp [h1, h2]

/-- For an (ASCII) alphabetic character, `ord(c.upper())` lies in the
uppercase range 65-90. -/
lemma py_ord_upper_bounds (c : Char) (h : py_isalpha_char c = true) :
    65 ≤ py_ord_upper c ∧ py_ord_upper c ≤ 90 := by
  unfold py_isalpha_char at h
  unfold py_ord_upper
  simp only [Bool.or_eq_true, Bool.and_eq_true, decide_eq_true_eq] at h
  split_ifs with hl
  · simp only [Bool.and_eq_true, decide_eq_true_eq] at hl
    omega
  · simp only [Bool.and_eq_true, decide_eq_true_eq, not_and, not_le] at hl
    omega

/-- On alphabetic characters the bit offset determines the upper-cased
code point and conversely, so the two no-duplicate conditions agree. -/
lemma nodup_offset_iff_upper (l : List Char)
    (h : ∀ c ∈ l, py_isalpha_char c = true) :
    (l.map plug_bit_offset).Nodup ↔ (l.map py_ord_upper).Nodup := by
  induction l with
  | nil => simp
  | cons c rest ih =>
    have hc := py_ord_upper_bounds c (h c (List.mem_cons_self c rest))
    have hrest : ∀ d ∈ rest, py_isalpha_char d = true :=
      fun d hd => h d (List.mem_cons_of_mem c hd)
    simp only [List.map_cons, List.nodup_cons]
    rw [ih hrest]
    have hmem : (plug_bit_offset c ∈ rest.map plug_bit_offset) ↔
        (py_ord_upper c ∈ rest.map py_ord_upper) := by
      simp only [List.mem_map]
      constructor
      · rintro ⟨d, hd, hde⟩
        have hdb := py_ord_upper_bounds d (hrest d hd)
        refine ⟨d, hd, ?_⟩
        unfold plug_bit_offset at hde
        omega
      · rintro ⟨d, hd, hde⟩
        refine ⟨d, hd, ?_⟩
        unfold plug_bit_offset
        omega
    rw [hmem]

/-- `takeWhile` keeps exactly the first line of a stream whose first
newline terminates that line. -/
lemma takeWhile_first_line (rest : List Char) : ∀ line : List Char,
    '\n' ∉ line →
    (line ++ '\n' :: rest).takeWhile (fun c => c ≠ '\n') = line := by
  intro line
  induction line with
  | nil => intro h; simp [List.takeWhile_cons]
  | cons a l ih =>
    intro h
    have ha : a ≠ '\n' := fun e => h (e ▸ List.mem_cons_self a l)
    have h' : '\n' ∉ l := fun hm => h (List.mem_cons_of_mem a hm)
    have hpa : (fun c => decide (c ≠ '\n')) a = true := by simp [ha]
    rw [List.cons_append, List.takeWhile_cons, if_pos hpa, ih h']

/-- The comprehension of line 59 agrees with the spec's description:
consecutive non-overlapping 2-character windows, left to right. -/
lemma plug_swaps_eq_pairs : ∀ (k : Nat) (s : List Char), s.length = 2 * k →
    plug_swaps s = pairs_spec s := by
  intro k
  induction k with
  | zero =>
    intro s hs
    have : s = [] := List.length_eq_zero.1 (by omega)
    subst this
    rfl
  | succ k ih =>
    intro s hs
    match s with
    | [] => simp at hs
    | [a] => simp at hs; omega
    | a :: b :: t =>
      have ht : t.length = 2 * k := by
        simp only [List.length_cons] at hs
        omega
      have hrange : ((a :: b :: t).length + 1) / 2 = k + 1 := by
        simp only [List.length_cons]
        omega
      unfold plug_swaps
      rw [hrange, List.range_succ_eq_map, List.map_cons, List.map_map]
      show _ :: _ = pairs_spec (a :: b :: t)
      rw [pairs_spec]
      congr 1
      rw [← ih t ht]
      unfold plug_swaps
      rw [show (t.length + 1) / 2 = k by omega]
      refine List.map_congr_left ?_
      intro j hj
      show ((a :: b :: t).drop (2 * Nat.succ j)).take 2 = (t.drop (2 * j)).take 2
      rw [show 2 * Nat.succ j = 2 * j + 1 + 1 by omega,
        List.drop_succ_cons, List.drop_succ_cons]

/-! ### Claim theorems -/

/-- C1 (counterexample): stream-mode acquisition does NOT preserve embedded
line terminators.  On stdin content `"HI\nTHERE\n"` the acquired text is
`"HITHERE"` (length 7), while the claim demands `"HI\nTHERE"` (length 8). -/
theorem stream_acquire_embedded_newline_counterexample :
    acquire_stream ("HI\nTHERE\n".data) = ("HITHERE".data) ∧
      (acquire_stream ("HI\nTHERE\n".data)).length = 7 ∧
      ("HI\nTHERE".data).length = 8 := by
  refine ⟨by decide, by decide, by decide⟩

/-- C1 (amended): stream-mode acquisition removes every `'\n'` of the
stream content, embedded or trailing; the acquired text is the content
filtered of newlines, and `"HI\nTHERE\n"` yields `"HITHERE"`. -/
theorem stream_acquire_filters_newlines :
    (∀ content : List Char,
        acquire_stream content = content.filter (fun c => c ≠ '\n')) ∧
      acquire_stream ("HI\nTHERE\n".data) = ("HITHERE".data) := by
  refine ⟨fun content => ?_, by decide⟩
  unfold acquire_stream
  rw [stream_fold_eq]
  rfl

/-- C10: the text produced by stream-mode acquisition contains no newline
character at all: every character of the result differs from `'\n'`. -/
theorem stream_acquire_yields_no_newline (content : List Char) :
    (acquire_stream content).all (fun c => c != '\n') = true := by
  unfold acquire_stream
  rw [stream_fold_eq]
  simp only [List.nil_append, List.all_eq_true, List.mem_filter,
    decide_eq_true_eq, bne_iff_ne, ne_eq]
  intro c hc
  exact hc.2

/-- C8: in prompt mode the acquirer shows the fixed prompt and hands the
user-supplied line, stripped of its terminator, to the encipher call: when
the input stream starts with `line ++ "\n"` and `line` has no embedded
newline, the acquired text is exactly `line`. -/
theorem prompt_mode_acquires_line (line rest : List Char) (h : '\n' ∉ line) :
    acquired_text true (line ++ '\n' :: rest) = line ∧
      PROMPT = "Enter your text and press <Enter>: " := by
  refine ⟨?_, rfl⟩
  unfold acquired_text raw_input_acquire
  rw [if_pos rfl]
  exact takeWhile_first_line rest line h

/-- Witness for C8 at `line = "XY"`, `rest = "Z"`. -/
theorem prompt_mode_acquires_line_witness :
    '\n' ∉ ("XY".data) ∧
      (acquired_text true (("XY".data) ++ '\n' :: ("Z".data)) = ("XY".data) ∧
        PROMPT = "Enter your text and press <Enter>: ") :=
  ⟨by decide, prompt_mode_acquires_line ("XY".data) ("Z".data) (by decide)⟩

/-- C6: rotor-order translation is the elementwise left-to-right lookup in
the fixed table `WHEELS_DICT`; `"312"` yields Rotor-III, Rotor-I, Rotor-II. -/
theorem rotor_order_elementwise_lookup :
    (∀ a b c : Char,
        rotor_order [a, b, c] = [WHEELS_DICT a, WHEELS_DICT b, WHEELS_DICT c]) ∧
      rotor_order ("312".data) = [some "III", some "I", some "II"] :=
  ⟨fun _ _ _ => rfl, by decide⟩

/-- C7: both validators are total functions of their single string
argument: on every input they return one of the two booleans (the
embedding is a total, computable transliteration of the Python code, in
which no fallible operation occurs). -/
theorem validators_are_total (l : List Char) :
    (valid_plugboard l = true ∨ valid_plugboard l = false) ∧
      (valid_wheel_info l = true ∨ valid_wheel_info l = false) := by
  constructor
  · cases valid_plugboard l <;> simp
  · cases valid_wheel_info l <;> simp

/-- C9: once `valid_wheel_info` has accepted the rotor string, every
lookup of the translation is defined: the translated order has exactly 3
entries and each is `some` rotor identifier (never the `none` of a missed
`dict.get`). -/
theorem rotor_order_defined_on_valid (l : List Char)
    (h : valid_wheel_info l = true) :
    (rotor_order l).length = 3 ∧ ∀ o ∈ rotor_order l, o.isSome = true := by
  unfold valid_wheel_info at h
  by_cases h3 : l.length ≠ 3
  · rw [if_pos h3] at h
    exact absurd h (by simp)
  · rw [if_neg h3] at h
    by_cases hd : ¬python_isdigit l = true
    · rw [if_pos hd] at h
      exact absurd h (by simp)
    · rw [if_neg hd] at h
      constructor
      · simp only [rotor_order, List.length_map]
        omega
      · intro o ho
        obtain ⟨c, hc, rfl⟩ := List.mem_map.1 ho
        have := List.all_eq_true.1 h c hc
        have hne : WHEELS_DICT c ≠ none := of_decide_eq_true this
        exact Option.ne_none_iff_isSome.1 hne

/-- Witness for C9 at the validated rotor string `"312"`. -/
theorem rotor_order_defined_on_valid_witness :
    valid_wheel_info ("312".data) = true ∧
      ((rotor_order ("312".data)).length = 3 ∧
        ∀ o ∈ rotor_order ("312".data), o.isSome = true) :=
  ⟨by decide, rotor_order_defined_on_valid ("312".data) (by decide)⟩

/-- C2: `valid_plugboard` accepts exactly the non-empty purely-alphabetic
strings of even length between 2 and 12 in which no letter occurs twice
case-insensitively; `"AZYB"` and `"azYB"` pass, `"AZAB"`, `"A"`, `""` and a
13-letter string fail. -/
theorem valid_plugboard_characterization :
    (∀ l : List Char,
        valid_plugboard l = true ↔
          (l ≠ [] ∧ (∀ c ∈ l, py_isalpha_char c = true) ∧
            2 ≤ l.length ∧ l.length ≤ 12 ∧ l.length % 2 = 0 ∧
            (l.map py_ord_upper).Nodup)) ∧
      valid_plugboard ("AZYB".data) = true ∧
      valid_plugboard ("azYB".data) = true ∧
      valid_plugboard ("AZAB".data) = false ∧
      valid_plugboard ("A".data) = false ∧
      valid_plugboard ("".data) = false ∧
      valid_plugboard ("ABCDEFGHIJKLM".data) = false := by
  refine ⟨fun l => ?_, by decide, by decide, by decide, by decide, by decide,
    by decide⟩
  unfold valid_plugboard
  split_ifs with hguard
  · constructor
    · intro h; exact absurd h (by simp)
    · rintro ⟨hne, halpha, h2, h12, heven, -⟩
      exfalso
      have hpy : python_isalpha l = true := (python_isalpha_iff l).2 ⟨hne, halpha⟩
      rcases hguard with h | h | h
      · exact h hpy
      · exact h ⟨h2, h12⟩
      · omega
  · push_neg at hguard
    obtain ⟨halpha, hlen, hodd⟩ := hguard
    obtain ⟨hne, hall⟩ := (python_isalpha_iff l).1 halpha
    rw [plug_dup_scan_iff]
    simp only [Nat.zero_testBit, eq_self_iff_true, implies_true, and_true]
    rw [nodup_offset_iff_upper l hall]
    constructor
    · intro hnd
      exact ⟨hne, hall, hlen.1, hlen.2, by omega, hnd⟩
    · rintro ⟨-, -, -, -, -, hnd⟩
      exact hnd

/-- C3: `valid_wheel_info` accepts exactly the 3-character digit strings
whose characters all lie in the supported set 1, 2, 3, 5; duplicates such
as `"113"` pass, `"124"`, `"12"` and non-digit content fail. -/
theorem valid_wheel_info_characterization :
    (∀ l : List Char,
        valid_wheel_info l = true ↔
          (l.length = 3 ∧ (∀ c ∈ l, py_isdigit_char c = true) ∧
            ∀ c ∈ l, c = '1' ∨ c = '2' ∨ c = '3' ∨ c = '5')) ∧
      valid_wheel_info ("113".data) = true ∧
      valid_wheel_info ("135".data) = true ∧
      valid_wheel_info ("124".data) = false ∧
      valid_wheel_info ("12".data) = false ∧
      valid_wheel_info ("1a3".data) = false := by
  refine ⟨fun l => ?_, by decide, by decide, by decide, by decide, by decide⟩
  unfold valid_wheel_info
  by_cases h3 : l.length ≠ 3
  · rw [if_pos h3]
    constructor
    · intro h; exact absurd h (by simp)
    · rintro ⟨hl, -, -⟩; exact absurd hl h3
  · rw [if_neg h3]
    push_neg at h3
    by_cases hd : ¬python_isdigit l = true
    · rw [if_pos hd]
      constructor
      · intro h; exact absurd h (by simp)
      · rintro ⟨hl, hdig, -⟩
        have hne : l ≠ [] := by intro e; rw [e] at hl; simp at hl
        exact absurd ((python_isdigit_iff l).2 ⟨hne, hdig⟩) hd
    · rw [if_neg hd]
      push_neg at hd
      obtain ⟨-, hdig⟩ := (python_isdigit_iff l).1 hd
      rw [List.all_eq_true]
      constructor
      · intro h
        refine ⟨h3, hdig, fun c hc => ?_⟩
        exact (WHEELS_DICT_ne_none_iff c).1 (of_decide_eq_true (h c hc))
      · rintro ⟨-, -, hmem⟩
        intro c hc
        exact decide_eq_true ((WHEELS_DICT_ne_none_iff c).2 (hmem c hc))

/-- C4: `main` checks `-m`, then `-w`, then (when supplied) `-s`, and at
the first failing parameter it prints that parameter's diagnostic and
exits with status 1 before `process_request` — so before the engine is
ever constructed — regardless of whether later parameters are also
invalid; only when all checks pass does control reach `process_request`. -/
theorem main_validation_order (m w : List Char) (s : Option (List Char)) :
    (¬(m.length = 3 ∧ python_isalpha m = true) →
        main_validate m w s = MainStep.reject msg_m 1) ∧
      ((m.length = 3 ∧ python_isalpha m = true) → valid_wheel_info w = false →
        main_validate m w s = MainStep.reject msg_w 1) ∧
      (∀ ps, (m.length = 3 ∧ python_isalpha m = true) →
        valid_wheel_info w = true → s = some ps → valid_plugboard ps = false →
        main_validate m w s = MainStep.reject msg_s 1) ∧
      ((m.length = 3 ∧ python_isalpha m = true) → valid_wheel_info w = true →
        (s = none ∨ ∃ ps, s = some ps ∧ valid_plugboard ps = true) →
        main_validate m w s = MainStep.run) := by
  refine ⟨?_, ?_, ?_, ?_⟩
  · intro h
    have hc : m.length ≠ 3 ∨ ¬python_isalpha m = true := by tauto
    unfold main_validate
    rw [if_pos hc]
  · rintro ⟨h1, h2⟩ hw
    have hc : ¬(m.length ≠ 3 ∨ ¬python_isalpha m = true) := by tauto
    unfold main_validate
    rw [if_neg hc, if_pos (by simp [hw])]
  · rintro ps ⟨h1, h2⟩ hw rfl hps
    have hc : ¬(m.length ≠ 3 ∨ ¬python_isalpha m = true) := by tauto
    unfold main_validate
    rw [if_neg hc, if_neg (by simp [hw])]
    show (if ¬valid_plugboard ps = true then MainStep.reject msg_s 1
      else MainStep.run) = _
    rw [if_pos (by simp [hps])]
  · rintro ⟨h1, h2⟩ hw hs
    have hc : ¬(m.length ≠ 3 ∨ ¬python_isalpha m = true) := by tauto
    unfold main_validate
    rw [if_neg hc, if_neg (by simp [hw])]
    rcases hs with rfl | ⟨ps, rfl, hps⟩
    · rfl
    · show (if ¬valid_plugboard ps = true then MainStep.reject msg_s 1
        else MainStep.run) = _
      rw [if_neg (by simp [hps])]

/-- Witness for C4: with several parameters invalid at once, only the
first in the order `-m`, `-w`, `-s` is reported; with all valid, control
reaches `process_request`. -/
theorem main_validation_order_witness :
    main_validate ("AB".data) ("124".data) (some ("AZAB".data)) =
        MainStep.reject msg_m 1 ∧
      main_validate ("XYZ".data) ("124".data) (some ("AZAB".data)) =
        MainStep.reject msg_w 1 ∧
      main_validate ("XYZ".data) ("312".data) (some ("AZAB".data)) =
        MainStep.reject msg_s 1 ∧
      main_validate ("XYZ".data) ("312".data) (some ("AZYB".data)) =
        MainStep.run :=
  ⟨(main_validation_order ("AB".data) ("124".data) (some ("AZAB".data))).1
      (by decide),
    (main_validation_order ("XYZ".data) ("124".data)
      (some ("AZAB".data))).2.1 (by decide) (by decide),
    (main_validation_order ("XYZ".data) ("312".data)
      (some ("AZAB".data))).2.2.1 ("AZAB".data) (by decide) (by decide) rfl
      (by decide),
    (main_validation_order ("XYZ".data) ("312".data)
      (some ("AZYB".data))).2.2.2 (by decide) (by decide)
      (Or.inr ⟨"AZYB".data, rfl, by decide⟩)⟩

/-- C5: on a validated packed plugboard string of length `2 * k` the
translator produces exactly the `k` consecutive non-overlapping
2-character windows, left to right, with no reordering. -/
theorem plug_swaps_windows (k : Nat) (s : List Char) (h : s.length = 2 * k) :
    plug_swaps s = pairs_spec s ∧ (plug_swaps s).length = k := by
  refine ⟨plug_swaps_eq_pairs k s h, ?_⟩
  simp only [plug_swaps, List.length_map, List.length_range]
  omega

/-- Witness for C5 at `"AZYB"`: the pair sequence is A-Z then Y-B. -/
theorem plug_swaps_windows_witness :
    ("AZYB".data).length = 2 * 2 ∧
      (plug_swaps ("AZYB".data) = pairs_spec ("AZYB".data) ∧
        (plug_swaps ("AZYB".data)).length = 2) ∧
      plug_swaps ("AZYB".data) = [("AZ".data), ("YB".data)] :=
  ⟨by decide, plug_swaps_windows 2 ("AZYB".data) (by decide), by decide⟩

end EnigmaCli
